import Mathlib

/-!
Verification of the CBC padding-oracle attack demo
(`CBC Padding Oracle Attack.py` and `DemoOracle.py`).

Byte strings are modelled as `List Nat` with every element `< 256`.
The AES block cipher (an external library primitive, fixed only by
contract) is modelled as an arbitrary function `dec : List Nat → List Nat`
giving the raw block-decryption output `D_K(C)` of a ciphertext block;
its inverse `enc` models block encryption.  The Python `exit(1)` on
exhaustion is modelled by `Option`, `none` being the fatal abort.
-/

namespace CBCDemo

/-- `BLOCKSIZE` from `DemoOracle.py`: the AES block size in bytes. -/
def BLOCKSIZE : Nat := 16

/-- Byte-wise XOR of two byte sequences (the body of `xor` in the attack
script, which zips the two sequences).  The Python helper first asserts
the lengths are equal; the checked variant `xor` below models that
assert, and the development proves the assert can never fire. -/
def xorBytes (a b : List Nat) : List Nat :=
  List.zipWith (fun x y => x ^^^ y) a b

/-- The `xor` helper of the attack script, assert included: `none`
models the `AssertionError` raised on unequal lengths. -/
def xor (a b : List Nat) : Option (List Nat) :=
  if a.length = b.length then some (xorBytes a b) else none

/-- Success of `Crypto.Util.Padding.unpad` (PKCS#7) as called by
`Oracle.decrypt_check`: the data must be non-empty, block-aligned, its
last byte `p` must satisfy `1 ≤ p ≤ min BLOCKSIZE len`, and the last
`p` bytes must all equal `p`.  `true` means `unpad` succeeds (valid
padding), `false` that it raises `ValueError`. -/
def validPad (d : List Nat) : Bool :=
  decide (d.length ≠ 0) && decide (d.length % BLOCKSIZE = 0) &&
    (let p := d.getLastD 0
     decide (1 ≤ p) && decide (p ≤ min BLOCKSIZE d.length) &&
       (d.drop (d.length - p)).all (fun x => x == p))

/-- `Oracle.decrypt_check` of `DemoOracle.py` for a single ciphertext
block: CBC decryption of one block under the secret key is the raw
block-decryption output XORed with the caller-supplied IV; the second
component reports whether `unpad` succeeded.  The `try/except` in the
source means no exception escapes: both branches return the raw bytes
`d_k` together with the validity flag. -/
def decrypt_check (dec : List Nat → List Nat) (ct iv : List Nat) :
    List Nat × Bool :=
  let d_k := xorBytes (dec ct) iv
  (d_k, validPad d_k)

/-- The candidate IV `iv1` built in `attack_single_block` for index `i`
and guess `g`: bytes before `i` are taken from the working list, byte
`i` is the guess, and bytes after `i` are the working bytes XORed with
the pad value `BLOCKSIZE - i`. -/
def probeIV (st : List Nat) (i g : Nat) : List Nat :=
  st.take i ++ [g] ++
    xorBytes (st.drop (i + 1))
      (List.replicate (BLOCKSIZE - (i + 1)) (BLOCKSIZE - i))

/-- The confirmation IV `iv2` built at the last index: byte `i - 1` of
`iv1` is incremented by one modulo 256, all other bytes are kept. -/
def confirmIV (iv1 : List Nat) (i : Nat) : List Nat :=
  iv1.take (i - 1) ++ [(iv1.getD (i - 1) 0 + 1) % 256] ++ iv1.drop i

/-- Whether guess `g` at index `i` is accepted by the inner loop of
`attack_single_block`: the oracle must report valid padding for the
probe IV, and, at the last index only, also for the confirmation IV
(`r2` in the source); otherwise the loop continues with the next
guess. -/
def accepts (dec : List Nat → List Nat) (blk st : List Nat)
    (i g : Nat) : Bool :=
  let iv1 := probeIV st i g
  if (decrypt_check dec blk iv1).2 then
    if i = BLOCKSIZE - 1 then (decrypt_check dec blk (confirmIV iv1 i)).2
    else true
  else false

/-- The guess loop `for g in range(0x100)` of `attack_single_block`:
guesses are tried in ascending order and the first accepted one wins
(`break`); `none` corresponds to the loop's `else` clause firing. -/
def findGuess (dec : List Nat → List Nat) (blk st : List Nat)
    (i : Nat) : Option Nat :=
  (List.range 0x100).find? (accepts dec blk st i)

/-- One iteration of the outer loop of `attack_single_block` at index
`i`: on acceptance of `g` the working list is updated with
`iv_list[i] = g ^ (BLOCKSIZE - i)`; on exhaustion the script exits. -/
def attackStep (dec : List Nat → List Nat) (blk st : List Nat)
    (i : Nat) : Option (List Nat) :=
  (findGuess dec blk st i).map (fun g => st.set i (g ^^^ (BLOCKSIZE - i)))

/-- The outer loop `for i in reversed(range(BLOCKSIZE))` of
`attack_single_block`, phrased with `k` remaining indices: with fuel
`k + 1` the loop processes index `k`, then continues downwards. -/
def attackLoop (dec : List Nat → List Nat) (blk : List Nat) :
    Nat → List Nat → Option (List Nat)
  | 0, st => some st
  | k + 1, st => (attackStep dec blk st k).bind (attackLoop dec blk k)

/-- `attack_single_block(iv, block, oracle)`: starting from the all-zero
working list, recover every byte of the intermediate value, then XOR
with the true predecessor block to obtain the plaintext block. -/
def attack_single_block (iv blk : List Nat)
    (dec : List Nat → List Nat) : Option (List Nat) :=
  (attackLoop dec blk BLOCKSIZE (List.replicate BLOCKSIZE 0)).map
    (fun st => xorBytes st iv)

/-- The block split of the driver:
`[ct[i : i + BLOCKSIZE] for i in range(0, len(ct), BLOCKSIZE)]`. -/
def toBlocks (l : List Nat) : List (List Nat) :=
  match l with
  | [] => []
  | x :: xs =>
      (x :: xs).take BLOCKSIZE :: toBlocks ((x :: xs).drop BLOCKSIZE)
termination_by l.length
decreasing_by simp [BLOCKSIZE]; omega

/-- The per-block loop of the driver (`__main__`): each block is
attacked with the running predecessor (`prev_block`), results are
concatenated, and the predecessor is advanced to the block just
processed.  A failed block aborts the whole run (`exit(1)`). -/
def driverLoop (dec : List Nat → List Nat) :
    List Nat → List (List Nat) → Option (List Nat)
  | _, [] => some []
  | prev, b :: rest =>
      (attack_single_block prev b dec).bind fun p =>
        (driverLoop dec b rest).map fun ps => p ++ ps

/-- The attack driver of `__main__`: split the ciphertext into blocks
and run the per-block loop with the true IV as first predecessor. -/
def attackDriver (dec : List Nat → List Nat) (iv ct : List Nat) :
    Option (List Nat) :=
  driverLoop dec iv (toBlocks ct)

/-- `Crypto.Util.Padding.pad` (PKCS#7) as used by `Oracle.encrypt`: the
pad length is `BLOCKSIZE - len % BLOCKSIZE` (a full extra block when
the message is already aligned) and every pad byte equals it. -/
def pad (m : List Nat) : List Nat :=
  m ++ List.replicate (BLOCKSIZE - m.length % BLOCKSIZE)
    (BLOCKSIZE - m.length % BLOCKSIZE)

/-- AES-CBC encryption of a block sequence as performed inside
`Oracle.encrypt`, with `enc` the block cipher: each block is XORed with
the previous ciphertext block (initially the IV) and then enciphered. -/
def cbcEncrypt (enc : List Nat → List Nat) :
    List Nat → List (List Nat) → List (List Nat)
  | _, [] => []
  | prev, b :: rest =>
      enc (xorBytes prev b) :: cbcEncrypt enc (enc (xorBytes prev b)) rest

/-- `Oracle.encrypt` for a fixed IV: PKCS#7-pad the message and CBC
encrypt it, returning the flat ciphertext. -/
def encrypt (enc : List Nat → List Nat) (iv m : List Nat) : List Nat :=
  (cbcEncrypt enc iv (toBlocks (pad m))).flatten

/-- Number of `decrypt_check` calls the inner loop spends on guess `g`
at index `i`: one probe, plus one confirmation when the probe reports
valid padding at the last index. -/
def guessChecks (dec : List Nat → List Nat) (blk st : List Nat)
    (i g : Nat) : Nat :=
  if (decrypt_check dec blk (probeIV st i g)).2 then
    if i = BLOCKSIZE - 1 then 2 else 1
  else 1

/-- Number of `decrypt_check` calls spent at index `i`: guesses
`0 .. g` are tried when `g` is the first accepted guess, all 256
otherwise. -/
def indexChecks (dec : List Nat → List Nat) (blk st : List Nat)
    (i : Nat) : Nat :=
  (match findGuess dec blk st i with
   | some g => List.range (g + 1)
   | none => List.range 0x100).foldr
    (fun g acc => guessChecks dec blk st i g + acc) 0

/-- Total number of `decrypt_check` calls made by `attack_single_block`
on one block, following the outer loop (no further calls happen after
an exhausted index, since the script exits). -/
def totalChecks (dec : List Nat → List Nat) (blk : List Nat) :
    Nat → List Nat → Nat
  | 0, _ => 0
  | k + 1, st =>
      indexChecks dec blk st k +
        (match attackStep dec blk st k with
         | none => 0
         | some st2 => totalChecks dec blk k st2)

/-- Worst-case intermediate value for the oracle-call count: byte `i`
is `255 XOR (BLOCKSIZE - i)` for `i < 15` and byte 15 is 254, so every
index accepts only guess 255 and the last index needs a confirmation
probe on top of its 256 probes. -/
def DCEX : List Nat :=
  [239, 240, 241, 242, 243, 244, 245, 246, 247, 248, 249, 250, 251, 252,
   253, 254]

/-- The working list of `attack_single_block` at the moment `k` indices
remain to be solved, on a successful run: positions `≥ k` hold the
recovered intermediate bytes, positions `< k` still hold the initial
zeros. -/
def sigma (D : List Nat) (k : Nat) : List Nat :=
  List.replicate k 0 ++ D.drop k

/-- Modelled from the spec: "valid = true iff the resulting bytes form
a structurally valid pad (last byte `p` is in `[1,B]` and the last `p`
bytes all equal `p`)". -/
def specValidPad (d : List Nat) : Prop :=
  ∃ p, 1 ≤ p ∧ p ≤ BLOCKSIZE ∧ d.getLastD 0 = p ∧
    ∀ j, d.length - p ≤ j → j < d.length → d.getD j 0 = p

/-! ### Byte-wise XOR algebra -/

theorem xorBytes_length (a b : List Nat) :
    (xorBytes a b).length = min a.length b.length := by
  simp [xorBytes]

theorem xorBytes_append {a₁ b₁ : List Nat} (a₂ b₂ : List Nat)
    (h : a₁.length = b₁.length) :
    xorBytes (a₁ ++ a₂) (b₁ ++ b₂) = xorBytes a₁ b₁ ++ xorBytes a₂ b₂ :=
  List.zipWith_append _ _ _ _ _ h

theorem xorBytes_zero_right : ∀ a : List Nat,
    xorBytes a (List.replicate a.length 0) = a := by
  intro a
  induction a with
  | nil => rfl
  | cons x xs ih =>
      simp only [List.length_cons, List.replicate_succ, xorBytes,
        List.zipWith_cons_cons, Nat.xor_zero]
      exact congrArg (x :: ·) ih

theorem xorBytes_cancel_left : ∀ a b : List Nat, a.length = b.length →
    xorBytes a (xorBytes a b) = b := by
  intro a
  induction a with
  | nil =>
      intro b hb
      cases b with
      | nil => rfl
      | cons y ys => simp at hb
  | cons x xs ih =>
      intro b hb
      cases b with
      | nil => simp at hb
      | cons y ys =>
          simp only [xorBytes, List.zipWith_cons_cons, Nat.xor_cancel_left]
          exact congrArg (y :: ·) (ih ys (by simpa using hb))

theorem xorBytes_cancel_right : ∀ a b : List Nat, a.length = b.length →
    xorBytes (xorBytes a b) a = b := by
  intro a
  induction a with
  | nil =>
      intro b hb
      cases b with
      | nil => rfl
      | cons y ys => simp at hb
  | cons x xs ih =>
      intro b hb
      cases b with
      | nil => simp at hb
      | cons y ys =>
          simp only [xorBytes, List.zipWith_cons_cons]
          have hx : x ^^^ y ^^^ x = y := by
            rw [Nat.xor_comm x y, Nat.xor_assoc, Nat.xor_self, Nat.xor_zero]
          rw [hx]
          exact congrArg (y :: ·) (ih ys (by simpa using hb))

theorem xorBytes_lt : ∀ a b : List Nat, (∀ x ∈ a, x < 256) →
    (∀ x ∈ b, x < 256) → ∀ x ∈ xorBytes a b, x < 256 := by
  intro a
  induction a with
  | nil => intro b _ _ x hx; simp [xorBytes] at hx
  | cons u us ih =>
      intro b ha hb x hx
      cases b with
      | nil => simp [xorBytes] at hx
      | cons v vs =>
          simp only [xorBytes, List.zipWith_cons_cons, List.mem_cons] at hx
          rcases hx with hx | hx
          · subst hx
            have h256 : (256 : Nat) = 2 ^ 8 := by norm_num
            rw [h256]
            exact Nat.xor_lt_two_pow
              (by rw [← h256]; exact ha u (by simp))
              (by rw [← h256]; exact hb v (by simp))
          · exact ih vs (fun y hy => ha y (by simp [hy]))
              (fun y hy => hb y (by simp [hy])) x hx

/-! ### The working list on a successful run -/

theorem sigma_length (D : List Nat) (k : Nat) (hD : D.length = BLOCKSIZE)
    (hk : k ≤ BLOCKSIZE) : (sigma D k).length = BLOCKSIZE := by
  simp [sigma, hD]
  omega

theorem sigma_take (D : List Nat) (k i : Nat) (h : i ≤ k) :
    (sigma D k).take i = List.replicate i 0 := by
  rw [sigma, List.take_append_eq_append_take, List.take_replicate,
    List.length_replicate]
  have h1 : min i k = i := by omega
  have h2 : i - k = 0 := by omega
  rw [h1, h2]
  simp

theorem sigma_drop (D : List Nat) (k : Nat) :
    (sigma D k).drop k = D.drop k := by
  simp [sigma]

theorem sigma_zero (D : List Nat) : sigma D 0 = D := by
  simp [sigma]

theorem sigma_top (D : List Nat) (hD : D.length = BLOCKSIZE) :
    sigma D BLOCKSIZE = List.replicate BLOCKSIZE 0 := by
  rw [sigma, ← hD, List.drop_length, List.append_nil]

theorem sigma_getD_low (D : List Nat) (k j : Nat) (h : j < k) :
    (sigma D k).getD j 0 = 0 := by
  rw [sigma, List.getD_append _ _ _ _ (by simpa using h)]
  rw [List.getD_eq_getElem _ _ (by simpa using h)]
  exact List.getElem_replicate _ _

theorem sigma_getD_high (D : List Nat) (k j : Nat) (hD : D.length = BLOCKSIZE)
    (hkj : k ≤ j) (hj : j < BLOCKSIZE) : (sigma D k).getD j 0 = D.getD j 0 := by
  rw [sigma, List.getD_append_right _ _ _ _ (by simpa using hkj)]
  simp only [List.length_replicate]
  have h1 : j - k < (D.drop k).length := by simp; omega
  rw [List.getD_eq_getElem _ _ h1, List.getElem_drop,
    List.getD_eq_getElem _ _ (by omega)]
  congr 1
  omega

/-! ### Bytes of the probe IV -/

theorem probeIV_getD_low (st : List Nat) (i g j : Nat) (hj : j < i)
    (hi : i ≤ st.length) : (probeIV st i g).getD j 0 = st.getD j 0 := by
  have hlt : j < (st.take i).length := by simp; omega
  rw [probeIV, List.append_assoc, List.getD_append _ _ _ _ hlt,
    List.getD_eq_getElem _ _ hlt, List.getElem_take,
    List.getD_eq_getElem _ _ (by omega)]

theorem probeIV_getD_self (st : List Nat) (i g : Nat) (hi : i ≤ st.length) :
    (probeIV st i g).getD i 0 = g := by
  have hlen : (st.take i).length = i := by simp; omega
  rw [probeIV, List.append_assoc,
    List.getD_append_right _ _ _ _ (by omega), hlen]
  simp

theorem probeIV_getD_high (st : List Nat) (hst : st.length = BLOCKSIZE)
    (i g j : Nat) (hij : i < j) (hj : j < BLOCKSIZE) :
    (probeIV st i g).getD j 0 = st.getD j 0 ^^^ (BLOCKSIZE - i) := by
  have hiB : i < BLOCKSIZE := lt_trans hij hj
  have hlen : (st.take i).length = i := by simp; omega
  rw [probeIV, List.append_assoc,
    List.getD_append_right _ _ _ _ (by omega), hlen]
  have hji : j - i = (j - i - 1) + 1 := by omega
  rw [hji, List.singleton_append, List.getD_cons_succ]
  have hzl : (xorBytes (st.drop (i + 1))
      (List.replicate (BLOCKSIZE - (i + 1)) (BLOCKSIZE - i))).length
      = BLOCKSIZE - (i + 1) := by
    rw [xorBytes_length]
    simp [hst]
  have hidx : j - i - 1 < BLOCKSIZE - (i + 1) := by omega
  rw [List.getD_eq_getElem _ _ (by rw [hzl]; exact hidx)]
  simp only [xorBytes]
  rw [List.getElem_zipWith, List.getElem_drop, List.getElem_replicate]
  rw [List.getD_eq_getElem _ _ (by omega)]
  congr 2
  omega

theorem probeIV_length (st : List Nat) (hst : st.length = BLOCKSIZE)
    (i g : Nat) (hi : i < BLOCKSIZE) :
    (probeIV st i g).length = BLOCKSIZE := by
  have hB16 : BLOCKSIZE = 16 := rfl
  rw [probeIV]
  simp [xorBytes_length, hst]
  omega

/-! ### First-match search over the guess range -/

theorem find?_of_unique {p : Nat → Bool} {a : Nat} : ∀ l : List Nat,
    p a = true → (∀ x, p x = true → x = a) → a ∈ l →
    l.find? p = some a := by
  intro l
  induction l with
  | nil => intro _ _ h; simp at h
  | cons x xs ih =>
      intro hpa huniq hmem
      by_cases hx : p x = true
      · have : x = a := huniq x hx
        subst this
        simp [List.find?, hx]
      · have hxa : x ≠ a := fun h => hx (h ▸ hpa)
        have hmem' : a ∈ xs := by
          rcases List.mem_cons.mp hmem with h | h
          · exact absurd h.symm hxa
          · exact h
        simp only [List.find?]
        rw [Bool.eq_false_iff.mpr hx]
        exact ih hpa huniq hmem'

theorem find?_first {p : Nat → Bool} : ∀ (l : List Nat) (g : Nat),
    l.find? p = some g → l.Pairwise (· < ·) →
    ∀ g0 ∈ l, g0 < g → p g0 = false := by
  intro l
  induction l with
  | nil => intro g h; simp at h
  | cons x xs ih =>
      intro g hfind hpw g0 hmem hlt
      rcases List.pairwise_cons.mp hpw with ⟨hx, hpw'⟩
      by_cases hpx : p x = true
      · have hg : x = g := by
          simp [List.find?, hpx] at hfind
          exact hfind
        rcases List.mem_cons.mp hmem with h | h
        · subst h; omega
        · exact absurd hlt (by have := hx g0 h; omega)
      · have hfind' : xs.find? p = some g := by
          simpa [List.find?, Bool.eq_false_iff.mpr hpx] using hfind
        rcases List.mem_cons.mp hmem with h | h
        · subst h; exact Bool.eq_false_iff.mpr hpx
        · exact ih g hfind' hpw' g0 h hlt

/-! ### Padding validity -/

theorem getLastD_append_replicate (l : List Nat) (m v : Nat) (hm : 1 ≤ m) :
    (l ++ List.replicate m v).getLastD 0 = v := by
  obtain ⟨m', rfl⟩ : ∃ m', m = m' + 1 := ⟨m - 1, by omega⟩
  rw [List.replicate_succ' m' v, ← List.append_assoc]
  exact List.getLastD_concat _ _ _

theorem getD_of_all_drop (l : List Nat) (m v j : Nat)
    (hall : (l.drop m).all (fun x => x == v) = true)
    (hmj : m ≤ j) (hj : j < l.length) : l.getD j 0 = v := by
  have hidx : j - m < (l.drop m).length := by simp; omega
  have hmem : (l.drop m)[j - m] ∈ l.drop m := List.getElem_mem hidx
  have hbeq := List.all_eq_true.mp hall _ hmem
  have heq : (l.drop m)[j - m] = l[j] := by
    rw [List.getElem_drop]
    congr 1
    omega
  rw [List.getD_eq_getElem _ _ hj, ← heq]
  simpa using hbeq

theorem all_drop_of_getD (l : List Nat) (m v : Nat)
    (h : ∀ j, m ≤ j → j < l.length → l.getD j 0 = v) :
    (l.drop m).all (fun x => x == v) = true := by
  rw [List.all_eq_true]
  intro x hx
  rcases List.mem_iff_getElem.mp hx with ⟨n, hn, rfl⟩
  rw [List.getElem_drop]
  have hlt : m + n < l.length := by
    simp only [List.length_drop] at hn
    omega
  have hval := h (m + n) (by omega) hlt
  rw [List.getD_eq_getElem _ _ hlt] at hval
  simp [hval]

/-- Characterization of `validPad` on block-sized input: the length
tests always pass and only the structural pad test remains. -/
theorem validPad_iff (d : List Nat) (hd : d.length = BLOCKSIZE) :
    validPad d = true ↔
      1 ≤ d.getLastD 0 ∧ d.getLastD 0 ≤ BLOCKSIZE ∧
        (d.drop (BLOCKSIZE - d.getLastD 0)).all
          (fun x => x == d.getLastD 0) = true := by
  simp [validPad, hd, Bool.and_eq_true, decide_eq_true_eq, BLOCKSIZE,
    and_assoc]

/-- On block-sized input, `validPad` coincides with the structural pad
condition of the spec. -/
theorem validPad_iff_spec (d : List Nat) (hd : d.length = BLOCKSIZE) :
    validPad d = true ↔ specValidPad d := by
  rw [validPad_iff d hd]
  constructor
  · rintro ⟨h1, h2, h3⟩
    refine ⟨d.getLastD 0, h1, h2, rfl, fun j hj1 hj2 => ?_⟩
    refine getD_of_all_drop d (BLOCKSIZE - d.getLastD 0) _ j h3 ?_ hj2
    omega
  · rintro ⟨p, h1, h2, hlast, hj⟩
    subst hlast
    refine ⟨h1, h2, ?_⟩
    refine all_drop_of_getD d _ _ (fun j hj1 hj2 => ?_)
    exact hj j (by omega) hj2

/-- Validity of the decrypted probe at a non-last index: the forced
suffix makes the pad value `m + 1` the last byte, so the pad is valid
exactly when the byte under attack also decrypts to `m + 1`. -/
theorem validPad_mid (pre : List Nat) (x m : Nat) (hm : 1 ≤ m)
    (hlen : pre.length + (m + 1) = BLOCKSIZE) :
    validPad (pre ++ [x] ++ List.replicate m (m + 1)) = true ↔
      x = m + 1 := by
  have hL : (pre ++ [x] ++ List.replicate m (m + 1)).length = BLOCKSIZE := by
    simp
    omega
  have hlast : (pre ++ [x] ++ List.replicate m (m + 1)).getLastD 0 = m + 1 :=
    getLastD_append_replicate _ _ _ hm
  have hdrop : (pre ++ [x] ++ List.replicate m (m + 1)).drop
      (BLOCKSIZE - (m + 1)) = [x] ++ List.replicate m (m + 1) := by
    have hp : BLOCKSIZE - (m + 1) = pre.length := by omega
    rw [hp, List.append_assoc]
    exact List.drop_left _ _
  rw [validPad_iff _ hL, hlast, hdrop]
  have hm16 : m + 1 ≤ BLOCKSIZE := by omega
  simp [List.all_eq_true, List.mem_replicate, hm16]

/-- The decrypted probe block at index `i`, on the successful-run
working list: bytes below `i` are the raw intermediate bytes, byte `i`
is `D[i] XOR g`, and bytes above `i` are forced to the pad value. -/
theorem dk_probe (D : List Nat) (hD : D.length = BLOCKSIZE) (i g : Nat)
    (hi : i < BLOCKSIZE) :
    xorBytes D (probeIV (sigma D (i + 1)) i g) =
      D.take i ++ [D.getD i 0 ^^^ g] ++
        List.replicate (BLOCKSIZE - (i + 1)) (BLOCKSIZE - i) := by
  rw [probeIV, sigma_take D (i + 1) i (by omega), sigma_drop]
  have hsplit : D = (D.take i ++ [D.getD i 0]) ++ D.drop (i + 1) := by
    rw [List.append_assoc, List.getD_eq_getElem _ _ (by omega),
      List.singleton_append, ← List.drop_eq_getElem_cons (by omega),
      List.take_append_drop]
  have htake : (D.take i).length = i := by simp; omega
  have hdroplen : (D.drop (i + 1)).length =
      (List.replicate (BLOCKSIZE - (i + 1)) (BLOCKSIZE - i)).length := by
    simp [hD]
  nth_rewrite 1 [hsplit]
  rw [xorBytes_append _ _ (by simp [htake]),
    xorBytes_append _ _ (by simp [htake])]
  congr 2
  · conv_lhs => rw [show (List.replicate i 0) =
      List.replicate (D.take i).length 0 from by rw [htake]]
    exact xorBytes_zero_right _
  · exact xorBytes_cancel_left _ _ hdroplen

/-! ### Acceptance of a guess -/

theorem getD_take (l : List Nat) (n j : Nat) (hj : j < n)
    (hl : j < l.length) : (l.take n).getD j 0 = l.getD j 0 := by
  have h : j < (l.take n).length := by simp; omega
  rw [List.getD_eq_getElem _ _ h, List.getElem_take,
    List.getD_eq_getElem _ _ hl]

theorem xor_left_eq_iff (a b c : Nat) : a ^^^ b = c ↔ b = a ^^^ c := by
  constructor
  · intro h
    rw [← h, Nat.xor_cancel_left]
  · intro h
    rw [h, Nat.xor_cancel_left]

/-- At a non-last index, a guess is accepted exactly when it is the
unique value making the byte under attack decrypt to the pad value. -/
theorem accepts_mid (dec : List Nat → List Nat) (blk : List Nat)
    (hD : (dec blk).length = BLOCKSIZE) (i g : Nat)
    (hi : i < BLOCKSIZE - 1) :
    (accepts dec blk (sigma (dec blk) (i + 1)) i g = true) ↔
      g = (dec blk).getD i 0 ^^^ (BLOCKSIZE - i) := by
  have hB : (1 : Nat) ≤ BLOCKSIZE := by simp [BLOCKSIZE]
  have hiB : i < BLOCKSIZE := by omega
  have hne : ¬ (i = BLOCKSIZE - 1) := by omega
  simp only [accepts, decrypt_check, hne, if_false]
  rw [dk_probe (dec blk) hD i g hiB]
  have hm : BLOCKSIZE - i = (BLOCKSIZE - (i + 1)) + 1 := by omega
  rw [hm]
  have hvp := validPad_mid ((dec blk).take i) ((dec blk).getD i 0 ^^^ g)
    (BLOCKSIZE - (i + 1)) (by omega) (by simp; omega)
  by_cases hval : validPad ((dec blk).take i ++ [(dec blk).getD i 0 ^^^ g] ++
      List.replicate (BLOCKSIZE - (i + 1)) (BLOCKSIZE - (i + 1) + 1)) = true
  · rw [if_pos hval]
    have hx := hvp.mp hval
    rw [xor_left_eq_iff] at hx
    simp [hx]
  · rw [if_neg hval]
    simp only [Bool.false_eq_true, false_iff]
    intro h
    apply hval
    apply hvp.mpr
    rw [h, Nat.xor_cancel_left]

/-- At the last index, a guess survives both the probe and the
confirmation probe exactly when it makes the last byte decrypt to the
pad value 1: any other structurally valid pad needs byte `B-2` to
equal the pad value, which the confirmation flip destroys. -/
theorem accepts_last (dec : List Nat → List Nat) (blk : List Nat)
    (hD : (dec blk).length = BLOCKSIZE) (g : Nat) :
    (accepts dec blk (sigma (dec blk) BLOCKSIZE) (BLOCKSIZE - 1) g = true) ↔
      g = (dec blk).getD (BLOCKSIZE - 1) 0 ^^^ 1 := by
  have hB16 : BLOCKSIZE = 16 := rfl
  show accepts dec blk (sigma (dec blk) BLOCKSIZE) 15 g = true ↔
    g = (dec blk).getD 15 0 ^^^ 1
  set D := dec blk with hDd
  have hdrop16 : D.drop 16 = [] := by
    have h := List.drop_length D
    rw [hD, hB16] at h
    exact h
  have hdrop15 : D.drop 15 = [D.getD 15 0] := by
    rw [List.getD_eq_getElem _ _ (by omega),
      List.drop_eq_getElem_cons (by omega), hdrop16]
  have hdrop14 : D.drop 14 = [D.getD 14 0, D.getD 15 0] := by
    rw [List.getD_eq_getElem _ _ (by omega),
      List.drop_eq_getElem_cons (by omega), hdrop15,
      List.getD_eq_getElem _ _ (by omega)]
  have hsplit15 : D = D.take 15 ++ [D.getD 15 0] := by
    rw [← hdrop15, List.take_append_drop]
  have hsplit14 : D = (D.take 14 ++ [D.getD 14 0]) ++ [D.getD 15 0] := by
    rw [List.append_assoc, List.singleton_append]
    rw [show [D.getD 14 0, D.getD 15 0] = D.drop 14 from hdrop14.symm,
      List.take_append_drop]
  have htake15 : (D.take 15).length = 15 := by simp [hD, hB16]
  have htake14 : (D.take 14).length = 14 := by simp [hD, hB16]
  -- the probe IV and its decryption
  have hiv1 : probeIV (sigma D BLOCKSIZE) 15 g = List.replicate 15 0 ++ [g] := by
    rw [sigma_top D hD, probeIV, hB16]
    simp [xorBytes, List.take_replicate]
  have hdk : xorBytes D (List.replicate 15 0 ++ [g]) =
      D.take 15 ++ [D.getD 15 0 ^^^ g] := by
    nth_rewrite 1 [hsplit15]
    rw [xorBytes_append _ _ (by simp [htake15])]
    congr 1
    conv_lhs => rw [show (List.replicate 15 (0 : Nat)) =
      List.replicate (D.take 15).length 0 from by rw [htake15]]
    exact xorBytes_zero_right _
  -- the confirmation IV and its decryption
  have hconf : confirmIV (List.replicate 15 0 ++ [g]) 15 =
      (List.replicate 14 0 ++ [1]) ++ [g] := by
    rw [confirmIV]
    have h1 : (List.replicate 15 (0 : Nat) ++ [g]).take (15 - 1) =
        List.replicate 14 0 := by
      rw [List.take_append_eq_append_take, List.take_replicate]
      simp
    have h2 : (List.replicate 15 (0 : Nat) ++ [g]).getD (15 - 1) 0 = 0 := by
      rw [List.getD_append _ _ _ _ (by simp),
        List.getD_eq_getElem _ _ (by simp)]
      exact List.getElem_replicate _ _
    have h3 : (List.replicate 15 (0 : Nat) ++ [g]).drop 15 = [g] := by
      have h := List.drop_left (List.replicate 15 (0 : Nat)) [g]
      simp only [List.length_replicate] at h
      exact h
    rw [h1, h2, h3]
  have hdk2 : xorBytes D ((List.replicate 14 0 ++ [1]) ++ [g]) =
      (D.take 14 ++ [D.getD 14 0 ^^^ 1]) ++ [D.getD 15 0 ^^^ g] := by
    nth_rewrite 1 [hsplit14]
    rw [xorBytes_append _ _ (by simp [htake14]),
      xorBytes_append _ _ (by simp [htake14])]
    congr 3
    conv_lhs => rw [show (List.replicate 14 (0 : Nat)) =
      List.replicate (D.take 14).length 0 from by rw [htake14]]
    exact xorBytes_zero_right _
  -- lengths of the two decrypted blocks
  have hlen1 : (D.take 15 ++ [D.getD 15 0 ^^^ g]).length = BLOCKSIZE := by
    simp [htake15, hB16]
  have hlen2 : ((D.take 14 ++ [D.getD 14 0 ^^^ 1]) ++
      [D.getD 15 0 ^^^ g]).length = BLOCKSIZE := by
    simp [htake14, hB16]
  -- unfold the acceptance test
  simp only [accepts, decrypt_check]
  rw [hiv1, hconf, hdk, hdk2, if_pos (show (15 : Nat) = BLOCKSIZE - 1 from rfl)]
  have hlast1 : (D.take 15 ++ [D.getD 15 0 ^^^ g]).getLastD 0 =
      D.getD 15 0 ^^^ g := List.getLastD_concat _ _ _
  have hlast2 : ((D.take 14 ++ [D.getD 14 0 ^^^ 1]) ++
      [D.getD 15 0 ^^^ g]).getLastD 0 = D.getD 15 0 ^^^ g :=
    List.getLastD_concat _ _ _
  by_cases hv1 : validPad (D.take 15 ++ [D.getD 15 0 ^^^ g]) = true
  · rw [if_pos hv1]
    obtain ⟨hq1, hq16, hall1⟩ := (validPad_iff _ hlen1).mp hv1
    rw [hlast1] at hq1 hq16 hall1
    by_cases hq : D.getD 15 0 ^^^ g = 1
    · -- true pad of length 1: the confirmation also succeeds
      have hg : g = D.getD 15 0 ^^^ 1 := by
        rw [xor_left_eq_iff] at hq
        exact hq
      have hv2 : validPad ((D.take 14 ++ [D.getD 14 0 ^^^ 1]) ++
          [D.getD 15 0 ^^^ g]) = true := by
        rw [validPad_iff _ hlen2, hlast2, hq]
        refine ⟨le_refl 1, by omega, ?_⟩
        have hdl : BLOCKSIZE - 1 = (D.take 14 ++ [D.getD 14 0 ^^^ 1]).length := by
          simp [htake14, hB16]
        rw [hdl, List.drop_left]
        simp [hq]
      rw [hv2]
      simp [hg]
    · -- accidental longer pad: byte 14 must equal the pad value,
      -- which the confirmation flip contradicts
      have hq2 : 2 ≤ D.getD 15 0 ^^^ g := by omega
      have ha1 : D.getD 14 0 = D.getD 15 0 ^^^ g := by
        have h := getD_of_all_drop _ _ _ 14 hall1 (by omega) (by omega)
        rw [List.getD_append _ _ _ _ (by omega),
          getD_take _ _ _ (by omega) (by omega)] at h
        exact h
      constructor
      · intro hv2
        exfalso
        obtain ⟨hr1, hr16, hall2⟩ := (validPad_iff _ hlen2).mp hv2
        rw [hlast2] at hall2
        have ha2 : D.getD 14 0 ^^^ 1 = D.getD 15 0 ^^^ g := by
          have h := getD_of_all_drop _ _ _ 14 hall2 (by omega) (by omega)
          rw [List.getD_append _ _ _ _ (by simp [htake14]),
            List.getD_append_right _ _ _ _ (by omega)] at h
          rw [htake14] at h
          simpa using h
        rw [← ha1] at ha2
        have h10 : (1 : Nat) = 0 := by
          calc (1 : Nat) = D.getD 14 0 ^^^ (D.getD 14 0 ^^^ 1) :=
                (Nat.xor_cancel_left _ _).symm
            _ = D.getD 14 0 ^^^ D.getD 14 0 := by rw [ha2]
            _ = 0 := Nat.xor_self _
        exact one_ne_zero h10
      · intro hg
        exfalso
        apply hq
        rw [hg, Nat.xor_cancel_left]
  · rw [if_neg hv1]
    simp only [Bool.false_eq_true, false_iff]
    intro hg
    apply hv1
    rw [validPad_iff _ hlen1, hlast1, hg, Nat.xor_cancel_left]
    refine ⟨le_refl 1, by omega, ?_⟩
    have hdl : BLOCKSIZE - 1 = (D.take 15).length := by
      simp [htake15, hB16]
    rw [hdl, List.drop_left]
    simp

/-! ### The guess search and the outer loop on a successful run -/

theorem findGuess_mid (dec : List Nat → List Nat) (blk : List Nat)
    (hD : (dec blk).length = BLOCKSIZE) (hDb : ∀ x ∈ dec blk, x < 256)
    (i : Nat) (hi : i < BLOCKSIZE - 1) :
    findGuess dec blk (sigma (dec blk) (i + 1)) i =
      some ((dec blk).getD i 0 ^^^ (BLOCKSIZE - i)) := by
  have hB16 : BLOCKSIZE = 16 := rfl
  apply find?_of_unique
  · exact (accepts_mid dec blk hD i _ hi).mpr rfl
  · intro x hx
    exact (accepts_mid dec blk hD i x hi).mp hx
  · rw [List.mem_range]
    have hmem : (dec blk).getD i 0 ∈ dec blk := by
      rw [List.getD_eq_getElem _ _ (by omega)]
      exact List.getElem_mem _
    have h1 : (dec blk).getD i 0 < 256 := hDb _ hmem
    have h2 : BLOCKSIZE - i < 256 := by omega
    have h256 : (256 : Nat) = 2 ^ 8 := by norm_num
    show _ < 256
    rw [h256]
    exact Nat.xor_lt_two_pow (by omega) (by omega)

theorem findGuess_last (dec : List Nat → List Nat) (blk : List Nat)
    (hD : (dec blk).length = BLOCKSIZE) (hDb : ∀ x ∈ dec blk, x < 256) :
    findGuess dec blk (sigma (dec blk) BLOCKSIZE) (BLOCKSIZE - 1) =
      some ((dec blk).getD (BLOCKSIZE - 1) 0 ^^^ 1) := by
  have hB16 : BLOCKSIZE = 16 := rfl
  apply find?_of_unique
  · exact (accepts_last dec blk hD _).mpr rfl
  · intro x hx
    exact (accepts_last dec blk hD x).mp hx
  · rw [List.mem_range]
    have hmem : (dec blk).getD (BLOCKSIZE - 1) 0 ∈ dec blk := by
      rw [List.getD_eq_getElem _ _ (by omega)]
      exact List.getElem_mem _
    have h1 : (dec blk).getD (BLOCKSIZE - 1) 0 < 256 := hDb _ hmem
    have h256 : (256 : Nat) = 2 ^ 8 := by norm_num
    show _ < 256
    rw [h256]
    exact Nat.xor_lt_two_pow (by omega) (by omega)

theorem sigma_set (D : List Nat) (i : Nat) (hD : D.length = BLOCKSIZE)
    (hi : i < BLOCKSIZE) :
    (sigma D (i + 1)).set i (D.getD i 0) = sigma D i := by
  rw [sigma, List.set_append, if_pos (by simp), List.replicate_succ',
    List.set_append, if_neg (by simp)]
  simp only [List.length_replicate, Nat.sub_self, List.set_cons_zero]
  rw [List.append_assoc, List.singleton_append,
    List.getD_eq_getElem _ _ (by omega), ← List.drop_eq_getElem_cons (by omega)]
  rfl

theorem attackStep_sigma (dec : List Nat → List Nat) (blk : List Nat)
    (hD : (dec blk).length = BLOCKSIZE) (hDb : ∀ x ∈ dec blk, x < 256)
    (i : Nat) (hi : i < BLOCKSIZE) :
    attackStep dec blk (sigma (dec blk) (i + 1)) i =
      some (sigma (dec blk) i) := by
  have hB16 : BLOCKSIZE = 16 := rfl
  by_cases hlast : i = BLOCKSIZE - 1
  · subst hlast
    have h1 : BLOCKSIZE - 1 + 1 = BLOCKSIZE := by omega
    rw [attackStep, h1, findGuess_last dec blk hD hDb]
    have h2 : BLOCKSIZE - (BLOCKSIZE - 1) = 1 := by omega
    simp only [Option.map_some', h2]
    rw [Nat.xor_assoc, Nat.xor_self, Nat.xor_zero, ← h1]
    have h3 : BLOCKSIZE - 1 + 1 - 1 = BLOCKSIZE - 1 := by omega
    rw [h3, sigma_set (dec blk) (BLOCKSIZE - 1) hD (by omega)]
  · rw [attackStep, findGuess_mid dec blk hD hDb i (by omega)]
    simp only [Option.map_some']
    rw [Nat.xor_assoc, Nat.xor_self, Nat.xor_zero,
      sigma_set (dec blk) _ hD hi]

theorem attackLoop_sigma (dec : List Nat → List Nat) (blk : List Nat)
    (hD : (dec blk).length = BLOCKSIZE) (hDb : ∀ x ∈ dec blk, x < 256) :
    ∀ k, k ≤ BLOCKSIZE →
      attackLoop dec blk k (sigma (dec blk) k) = some (dec blk) := by
  intro k
  induction k with
  | zero => intro _; rw [sigma_zero]; rfl
  | succ k ih =>
      intro hk
      show (attackStep dec blk (sigma (dec blk) (k + 1)) k).bind
        (attackLoop dec blk k) = some (dec blk)
      rw [attackStep_sigma dec blk hD hDb k (by omega), Option.some_bind]
      exact ih (by omega)

theorem attackLoop_reach (dec : List Nat → List Nat) (blk : List Nat)
    (hD : (dec blk).length = BLOCKSIZE) (hDb : ∀ x ∈ dec blk, x < 256) :
    ∀ j, j ≤ BLOCKSIZE → ∀ k, k ≤ j →
      attackLoop dec blk j (sigma (dec blk) j) =
        attackLoop dec blk k (sigma (dec blk) k) := by
  intro j
  induction j with
  | zero =>
      intro _ k hk
      have h0 : k = 0 := by omega
      rw [h0]
  | succ j ih =>
      intro hj k hk
      by_cases hkj : k = j + 1
      · rw [hkj]
      · have hstep : attackLoop dec blk (j + 1) (sigma (dec blk) (j + 1)) =
            attackLoop dec blk j (sigma (dec blk) j) := by
          show (attackStep dec blk (sigma (dec blk) (j + 1)) j).bind
            (attackLoop dec blk j) = _
          rw [attackStep_sigma dec blk hD hDb j (by omega), Option.some_bind]
        rw [hstep]
        exact ih (by omega) k (by omega)

/-- On any well-formed intermediate value, the single-block attack
terminates successfully and returns exactly the raw decryption XORed
with the true predecessor block. -/
theorem attack_single_block_correct (dec : List Nat → List Nat)
    (blk iv : List Nat) (hD : (dec blk).length = BLOCKSIZE)
    (hDb : ∀ x ∈ dec blk, x < 256) :
    attack_single_block iv blk dec = some (xorBytes (dec blk) iv) := by
  rw [attack_single_block, ← sigma_top (dec blk) hD,
    attackLoop_sigma dec blk hD hDb BLOCKSIZE (le_refl _)]
  rfl

/-! ### Block segmentation and the driver -/

theorem toBlocks_nil : toBlocks [] = [] := by
  rw [toBlocks]

theorem toBlocks_eq (l : List Nat) (hl : l ≠ []) :
    toBlocks l = l.take BLOCKSIZE :: toBlocks (l.drop BLOCKSIZE) := by
  cases l with
  | nil => exact absurd rfl hl
  | cons x xs => rw [toBlocks]

theorem toBlocks_flatten : ∀ bs : List (List Nat),
    (∀ b ∈ bs, b.length = BLOCKSIZE) → toBlocks bs.flatten = bs := by
  intro bs
  induction bs with
  | nil => intro _; exact toBlocks_nil
  | cons b rest ih =>
      intro h
      have hb : b.length = BLOCKSIZE := h b (by simp)
      have hne : b ++ rest.flatten ≠ [] := by
        intro hc
        rcases List.append_eq_nil.mp hc with ⟨hb0, _⟩
        rw [hb0] at hb
        simp [BLOCKSIZE] at hb
      rw [List.flatten_cons, toBlocks_eq _ hne, ← hb, List.take_left,
        List.drop_left]
      exact congrArg (b :: ·) (ih (fun b' hb' => h b' (by simp [hb'])))

theorem flatten_toBlocks_aux : ∀ n, ∀ l : List Nat, l.length ≤ n →
    (toBlocks l).flatten = l := by
  intro n
  induction n with
  | zero =>
      intro l hl
      have h0 : l = [] := List.eq_nil_of_length_eq_zero (by omega)
      rw [h0, toBlocks_nil]
      rfl
  | succ n ih =>
      intro l hl
      by_cases hln : l = []
      · rw [hln, toBlocks_nil]
        rfl
      · have h1 : 1 ≤ l.length := by
          cases l with
          | nil => exact absurd rfl hln
          | cons x xs => simp
        rw [toBlocks_eq l hln, List.flatten_cons,
          ih (l.drop BLOCKSIZE)
            (by rw [List.length_drop]; have hB : BLOCKSIZE = 16 := rfl; omega),
          List.take_append_drop]

theorem flatten_toBlocks (l : List Nat) : (toBlocks l).flatten = l :=
  flatten_toBlocks_aux l.length l (le_refl _)

theorem toBlocks_wf : ∀ n, ∀ l : List Nat, l.length ≤ n →
    l.length % BLOCKSIZE = 0 →
    ∀ b ∈ toBlocks l, b.length = BLOCKSIZE ∧ ∀ x ∈ b, x ∈ l := by
  intro n
  induction n with
  | zero =>
      intro l hl _ b hb
      have h0 : l = [] := List.eq_nil_of_length_eq_zero (by omega)
      rw [h0, toBlocks_nil] at hb
      cases hb
  | succ n ih =>
      intro l hl hmod b hb
      have hB16 : BLOCKSIZE = 16 := rfl
      rw [hB16] at hmod
      by_cases hln : l = []
      · rw [hln, toBlocks_nil] at hb
        cases hb
      · have h1 : 1 ≤ l.length := by
          cases l with
          | nil => exact absurd rfl hln
          | cons x xs => simp
        have h16 : BLOCKSIZE ≤ l.length := by rw [hB16]; omega
        rw [toBlocks_eq l hln] at hb
        rcases List.mem_cons.mp hb with rfl | hb2
        · refine ⟨by simp; omega, fun x hx => List.take_subset _ _ hx⟩
        · have hrec := ih (l.drop BLOCKSIZE)
            (by rw [List.length_drop]; omega)
            (by rw [List.length_drop, hB16]; omega) b hb2
          exact ⟨hrec.1, fun x hx => List.drop_subset _ _ (hrec.2 x hx)⟩

theorem cbcEncrypt_wf (enc : List Nat → List Nat)
    (henc : ∀ b, b.length = BLOCKSIZE → (∀ x ∈ b, x < 256) →
      (enc b).length = BLOCKSIZE ∧ ∀ x ∈ enc b, x < 256) :
    ∀ bs prev, prev.length = BLOCKSIZE → (∀ x ∈ prev, x < 256) →
      (∀ b ∈ bs, b.length = BLOCKSIZE ∧ ∀ x ∈ b, x < 256) →
      ∀ c ∈ cbcEncrypt enc prev bs,
        c.length = BLOCKSIZE ∧ ∀ x ∈ c, x < 256 := by
  intro bs
  induction bs with
  | nil => intro prev _ _ _ c hc; cases hc
  | cons b rest ih =>
      intro prev hp hpb hbs c hc
      have hb := hbs b (by simp)
      have hxlen : (xorBytes prev b).length = BLOCKSIZE := by
        rw [xorBytes_length, hp, hb.1]
        simp
      have hxb : ∀ x ∈ xorBytes prev b, x < 256 := xorBytes_lt _ _ hpb hb.2
      have hcwf := henc _ hxlen hxb
      rcases List.mem_cons.mp hc with rfl | hc2
      · exact hcwf
      · exact ih _ hcwf.1 hcwf.2 (fun b' hb' => hbs b' (by simp [hb'])) c hc2

theorem driverLoop_cbc (enc dec : List Nat → List Nat)
    (hinv : ∀ b, b.length = BLOCKSIZE → (∀ x ∈ b, x < 256) →
      dec (enc b) = b)
    (henc : ∀ b, b.length = BLOCKSIZE → (∀ x ∈ b, x < 256) →
      (enc b).length = BLOCKSIZE ∧ ∀ x ∈ enc b, x < 256) :
    ∀ bs prev, prev.length = BLOCKSIZE → (∀ x ∈ prev, x < 256) →
      (∀ b ∈ bs, b.length = BLOCKSIZE ∧ ∀ x ∈ b, x < 256) →
      driverLoop dec prev (cbcEncrypt enc prev bs) = some bs.flatten := by
  intro bs
  induction bs with
  | nil => intro prev _ _ _; rfl
  | cons b rest ih =>
      intro prev hp hpb hbs
      have hb := hbs b (by simp)
      have hxlen : (xorBytes prev b).length = BLOCKSIZE := by
        rw [xorBytes_length, hp, hb.1]
        simp
      have hxb : ∀ x ∈ xorBytes prev b, x < 256 := xorBytes_lt _ _ hpb hb.2
      have hcwf := henc _ hxlen hxb
      have hdec : dec (enc (xorBytes prev b)) = xorBytes prev b :=
        hinv _ hxlen hxb
      show (attack_single_block prev (enc (xorBytes prev b)) dec).bind _ = _
      rw [attack_single_block_correct dec _ prev
        (by rw [hdec]; exact hxlen) (by rw [hdec]; exact hxb), hdec,
        xorBytes_cancel_right prev b (by rw [hp, hb.1]), Option.some_bind,
        ih (enc (xorBytes prev b)) hcwf.1 hcwf.2
          (fun b' hb' => hbs b' (by simp [hb']))]
      rfl

/-! ### Claim theorems -/

/-- C1: for every plaintext message and every oracle instance (a block
cipher `enc` with inverse `dec` on byte blocks, together with any IV),
running the attack driver on the (iv, ciphertext) pair produced by the
oracle's encryption reconstructs the original padded plaintext exactly,
byte for byte — including messages whose length is an exact multiple of
the block size, which receive a full extra pad block. -/
theorem C1_round_trip (enc dec : List Nat → List Nat)
    (hinv : ∀ b, b.length = BLOCKSIZE → (∀ x ∈ b, x < 256) →
      dec (enc b) = b)
    (henc : ∀ b, b.length = BLOCKSIZE → (∀ x ∈ b, x < 256) →
      (enc b).length = BLOCKSIZE ∧ ∀ x ∈ enc b, x < 256)
    (iv m : List Nat) (hiv : iv.length = BLOCKSIZE)
    (hivb : ∀ x ∈ iv, x < 256) (hm : ∀ x ∈ m, x < 256) :
    attackDriver dec iv (encrypt enc iv m) = some (pad m) := by
  have hB16 : BLOCKSIZE = 16 := rfl
  have hpadlen : (pad m).length % BLOCKSIZE = 0 := by
    rw [pad, List.length_append, List.length_replicate, hB16]
    omega
  have hpadb : ∀ x ∈ pad m, x < 256 := by
    intro x hx
    rcases List.mem_append.mp hx with h | h
    · exact hm x h
    · rw [List.eq_of_mem_replicate h]
      omega
  have hbs : ∀ b ∈ toBlocks (pad m),
      b.length = BLOCKSIZE ∧ ∀ x ∈ b, x < 256 := by
    intro b hb
    have h := toBlocks_wf (pad m).length (pad m) (le_refl _) hpadlen b hb
    exact ⟨h.1, fun x hx => hpadb x (h.2 x hx)⟩
  have hct := cbcEncrypt_wf enc henc (toBlocks (pad m)) iv hiv hivb hbs
  rw [attackDriver, encrypt, toBlocks_flatten _ (fun c hc => (hct c hc).1),
    driverLoop_cbc enc dec hinv henc (toBlocks (pad m)) iv hiv hivb hbs,
    flatten_toBlocks]

theorem C1_round_trip_witness :
    attackDriver (fun b => b) (List.replicate 16 0)
      (encrypt (fun b => b) (List.replicate 16 0) []) = some (pad []) :=
  C1_round_trip (fun b => b) (fun b => b) (fun _ _ _ => rfl)
    (fun _ h1 h2 => ⟨h1, h2⟩) (List.replicate 16 0) [] (by decide)
    (by decide) (by decide)

/-- C2: when the recoverer solves index `i` (its working list is then
`sigma D (i+1)`, as the run equality in the first conjunct shows), every
probe IV it builds has zeros before index `i`, the guess `g` at index
`i`, and `D[j] XOR (B - i)` at every index `j > i`, where `D[j]` are the
already-recovered intermediate bytes. -/
theorem C2_probe_structure (dec : List Nat → List Nat) (blk : List Nat)
    (hD : (dec blk).length = BLOCKSIZE) (hDb : ∀ x ∈ dec blk, x < 256)
    (i g : Nat) (hi : i < BLOCKSIZE) :
    attackLoop dec blk BLOCKSIZE (List.replicate BLOCKSIZE 0) =
      attackLoop dec blk (i + 1) (sigma (dec blk) (i + 1)) ∧
    (∀ j, j < i → (probeIV (sigma (dec blk) (i + 1)) i g).getD j 0 = 0) ∧
    (probeIV (sigma (dec blk) (i + 1)) i g).getD i 0 = g ∧
    (∀ j, i < j → j < BLOCKSIZE →
      (probeIV (sigma (dec blk) (i + 1)) i g).getD j 0 =
        (dec blk).getD j 0 ^^^ (BLOCKSIZE - i)) := by
  have hsl : (sigma (dec blk) (i + 1)).length = BLOCKSIZE :=
    sigma_length _ _ hD (by omega)
  refine ⟨?_, ?_, ?_, ?_⟩
  · rw [← sigma_top (dec blk) hD]
    exact attackLoop_reach dec blk hD hDb BLOCKSIZE (le_refl _) (i + 1)
      (by omega)
  · intro j hj
    rw [probeIV_getD_low _ _ _ _ hj (by omega)]
    exact sigma_getD_low _ _ _ (by omega)
  · exact probeIV_getD_self _ _ _ (by omega)
  · intro j hij hj
    rw [probeIV_getD_high _ hsl _ _ _ hij hj,
      sigma_getD_high _ _ _ hD (by omega) hj]

theorem C2_probe_structure_witness :
    attackLoop (fun _ => List.replicate 16 0) (List.replicate 16 0)
        BLOCKSIZE (List.replicate BLOCKSIZE 0) =
      attackLoop (fun _ => List.replicate 16 0) (List.replicate 16 0) 15
        (sigma (List.replicate 16 0) 15) ∧
    (∀ j, j < 14 →
      (probeIV (sigma (List.replicate 16 0) 15) 14 7).getD j 0 = 0) ∧
    (probeIV (sigma (List.replicate 16 0) 15) 14 7).getD 14 0 = 7 ∧
    (∀ j, 14 < j → j < BLOCKSIZE →
      (probeIV (sigma (List.replicate 16 0) 15) 14 7).getD j 0 =
        (List.replicate 16 0).getD j 0 ^^^ (BLOCKSIZE - 14)) :=
  C2_probe_structure (fun _ => List.replicate 16 0) (List.replicate 16 0)
    (by decide) (by decide) 14 7 (by decide)

/-- C6: for block-sized inputs the oracle's check never raises: it
returns the raw decryption (the block decryption XORed with the
caller-supplied IV) in both branches, and reports `valid = true`
exactly when that result ends in a structurally valid pad in the sense
of the spec. -/
theorem C6_check_contract (dec : List Nat → List Nat) (ct iv : List Nat)
    (hct : (dec ct).length = BLOCKSIZE) (hiv : iv.length = BLOCKSIZE) :
    decrypt_check dec ct iv =
      (xorBytes (dec ct) iv, validPad (xorBytes (dec ct) iv)) ∧
    ((decrypt_check dec ct iv).2 = true ↔
      specValidPad (xorBytes (dec ct) iv)) := by
  have hlen : (xorBytes (dec ct) iv).length = BLOCKSIZE := by
    rw [xorBytes_length, hct, hiv]
    simp
  exact ⟨rfl, validPad_iff_spec _ hlen⟩

theorem C6_check_contract_witness :
    decrypt_check (fun _ => List.replicate 16 0) (List.replicate 16 0)
        (List.replicate 16 0) =
      (xorBytes (List.replicate 16 0) (List.replicate 16 0),
        validPad (xorBytes (List.replicate 16 0) (List.replicate 16 0))) ∧
    ((decrypt_check (fun _ => List.replicate 16 0) (List.replicate 16 0)
        (List.replicate 16 0)).2 = true ↔
      specValidPad (xorBytes (List.replicate 16 0) (List.replicate 16 0))) :=
  C6_check_contract (fun _ => List.replicate 16 0) (List.replicate 16 0)
    (List.replicate 16 0) (by decide) (by decide)

/-- The confirmation IV of a block-sized list differs from it exactly
at index `B - 2`, which is incremented by one modulo 256. -/
theorem confirmIV_getD (u : List Nat) (hu : u.length = BLOCKSIZE) :
    (confirmIV u (BLOCKSIZE - 1)).getD (BLOCKSIZE - 2) 0 =
      (u.getD (BLOCKSIZE - 2) 0 + 1) % 256 ∧
    ∀ j, j < BLOCKSIZE → j ≠ BLOCKSIZE - 2 →
      (confirmIV u (BLOCKSIZE - 1)).getD j 0 = u.getD j 0 := by
  have hu16 : u.length = 16 := hu
  have htake : (u.take 14).length = 14 := by simp [hu16]
  constructor
  · show ((u.take 14 ++ [(u.getD 14 0 + 1) % 256]) ++ u.drop 15).getD 14 0 =
      (u.getD 14 0 + 1) % 256
    rw [List.getD_append _ _ _ _ (by simp [htake]),
      List.getD_append_right _ _ _ _ (le_of_eq htake), htake]
    simp
  · intro j hj hne
    have hj16 : j < 16 := hj
    have hne14 : j ≠ 14 := hne
    show ((u.take 14 ++ [(u.getD 14 0 + 1) % 256]) ++ u.drop 15).getD j 0 =
      u.getD j 0
    have hcase : j < 14 ∨ j = 15 := by omega
    rcases hcase with h | h
    · rw [List.getD_append _ _ _ _ (by simp [htake]; omega),
        List.getD_append _ _ _ _ (by rw [htake]; omega),
        getD_take _ _ _ (by omega) (by omega)]
    · subst h
      have hlen2 : (u.take 14 ++ [(u.getD 14 0 + 1) % 256]).length = 15 := by
        simp [htake]
      rw [List.getD_append_right _ _ _ _ (by rw [hlen2]), hlen2]
      show (u.drop 15).getD 0 0 = u.getD 15 0
      rw [List.getD_eq_getElem _ _ (by simp [hu16]), List.getElem_drop,
        List.getD_eq_getElem _ _ (by omega)]

/-- C3: at the last index, the recoverer reacts to a valid probe with
exactly one confirmation probe, whose IV differs from the probe IV only
at byte `B - 2` (incremented modulo 256); a guess is accepted iff both
checks report valid (then `D[B-1] = g XOR 1` is recorded), and a failed
confirmation merely moves on to the next guess at the same index. -/
theorem C3_confirmation (dec : List Nat → List Nat) (blk st : List Nat)
    (hst : st.length = BLOCKSIZE) (g : Nat) :
    ((confirmIV (probeIV st (BLOCKSIZE - 1) g) (BLOCKSIZE - 1)).getD
        (BLOCKSIZE - 2) 0 =
      ((probeIV st (BLOCKSIZE - 1) g).getD (BLOCKSIZE - 2) 0 + 1) % 256) ∧
    (∀ j, j < BLOCKSIZE → j ≠ BLOCKSIZE - 2 →
      (confirmIV (probeIV st (BLOCKSIZE - 1) g) (BLOCKSIZE - 1)).getD j 0 =
        (probeIV st (BLOCKSIZE - 1) g).getD j 0) ∧
    (accepts dec blk st (BLOCKSIZE - 1) g =
      ((decrypt_check dec blk (probeIV st (BLOCKSIZE - 1) g)).2 &&
        (decrypt_check dec blk
          (confirmIV (probeIV st (BLOCKSIZE - 1) g) (BLOCKSIZE - 1))).2)) ∧
    (guessChecks dec blk st (BLOCKSIZE - 1) g =
      if (decrypt_check dec blk (probeIV st (BLOCKSIZE - 1) g)).2
      then 2 else 1) ∧
    (∀ g0, findGuess dec blk st (BLOCKSIZE - 1) = some g0 →
      attackStep dec blk st (BLOCKSIZE - 1) =
        some (st.set (BLOCKSIZE - 1) (g0 ^^^ 1))) ∧
    (accepts dec blk st (BLOCKSIZE - 1) g = false →
      findGuess dec blk st (BLOCKSIZE - 1) ≠ some g) := by
  have hB16 : BLOCKSIZE = 16 := rfl
  have hiv1len : (probeIV st (BLOCKSIZE - 1) g).length = BLOCKSIZE :=
    probeIV_length st hst _ g (by omega)
  have hcf := confirmIV_getD _ hiv1len
  refine ⟨hcf.1, hcf.2, ?_, ?_, ?_, ?_⟩
  · by_cases h : (decrypt_check dec blk (probeIV st (BLOCKSIZE - 1) g)).2 =
      true <;> simp [accepts, h]
  · by_cases h : (decrypt_check dec blk (probeIV st (BLOCKSIZE - 1) g)).2 =
      true <;> simp [guessChecks, h]
  · intro g0 h
    rw [attackStep, h, Option.map_some']
    rfl
  · intro hacc hfind
    rw [findGuess] at hfind
    have := List.find?_some hfind
    rw [hacc] at this
    cases this

theorem C3_confirmation_witness :
    ((confirmIV (probeIV (List.replicate 16 0) (BLOCKSIZE - 1) 3)
        (BLOCKSIZE - 1)).getD (BLOCKSIZE - 2) 0 =
      ((probeIV (List.replicate 16 0) (BLOCKSIZE - 1) 3).getD
        (BLOCKSIZE - 2) 0 + 1) % 256) ∧
    (∀ j, j < BLOCKSIZE → j ≠ BLOCKSIZE - 2 →
      (confirmIV (probeIV (List.replicate 16 0) (BLOCKSIZE - 1) 3)
          (BLOCKSIZE - 1)).getD j 0 =
        (probeIV (List.replicate 16 0) (BLOCKSIZE - 1) 3).getD j 0) ∧
    (accepts (fun _ => List.replicate 16 0) (List.replicate 16 0)
        (List.replicate 16 0) (BLOCKSIZE - 1) 3 =
      ((decrypt_check (fun _ => List.replicate 16 0) (List.replicate 16 0)
          (probeIV (List.replicate 16 0) (BLOCKSIZE - 1) 3)).2 &&
        (decrypt_check (fun _ => List.replicate 16 0) (List.replicate 16 0)
          (confirmIV (probeIV (List.replicate 16 0) (BLOCKSIZE - 1) 3)
            (BLOCKSIZE - 1))).2)) ∧
    (guessChecks (fun _ => List.replicate 16 0) (List.replicate 16 0)
        (List.replicate 16 0) (BLOCKSIZE - 1) 3 =
      if (decrypt_check (fun _ => List.replicate 16 0) (List.replicate 16 0)
          (probeIV (List.replicate 16 0) (BLOCKSIZE - 1) 3)).2
      then 2 else 1) ∧
    (∀ g0, findGuess (fun _ => List.replicate 16 0) (List.replicate 16 0)
        (List.replicate 16 0) (BLOCKSIZE - 1) = some g0 →
      attackStep (fun _ => List.replicate 16 0) (List.replicate 16 0)
          (List.replicate 16 0) (BLOCKSIZE - 1) =
        some ((List.replicate 16 0).set (BLOCKSIZE - 1) (g0 ^^^ 1))) ∧
    (accepts (fun _ => List.replicate 16 0) (List.replicate 16 0)
        (List.replicate 16 0) (BLOCKSIZE - 1) 3 = false →
      findGuess (fun _ => List.replicate 16 0) (List.replicate 16 0)
        (List.replicate 16 0) (BLOCKSIZE - 1) ≠ some 3) :=
  C3_confirmation (fun _ => List.replicate 16 0) (List.replicate 16 0)
    (List.replicate 16 0) (by decide) 3

/-- C4: at a non-last index there is no confirmation probe — a guess is
accepted exactly when the oracle reports valid padding — guesses are
tried in ascending order with the first match winning, the accepted
guess is recorded as `D[i] = g XOR (B - i)`, and the loop then advances
to the next lower index. -/
theorem C4_first_match (dec : List Nat → List Nat) (blk st : List Nat)
    (i : Nat) (hi : i < BLOCKSIZE - 1) :
    (∀ g, accepts dec blk st i g =
      (decrypt_check dec blk (probeIV st i g)).2) ∧
    (∀ g, findGuess dec blk st i = some g →
      g < 0x100 ∧ accepts dec blk st i g = true ∧
        ∀ g0, g0 < g → accepts dec blk st i g0 = false) ∧
    (attackStep dec blk st i =
      (findGuess dec blk st i).map
        (fun g => st.set i (g ^^^ (BLOCKSIZE - i)))) ∧
    (attackLoop dec blk (i + 1) st =
      (attackStep dec blk st i).bind (attackLoop dec blk i)) := by
  have hne : ¬ (i = BLOCKSIZE - 1) := by omega
  refine ⟨?_, ?_, rfl, rfl⟩
  · intro g
    by_cases h : (decrypt_check dec blk (probeIV st i g)).2 = true <;>
      simp [accepts, hne, h]
  · intro g hg
    rw [findGuess] at hg
    refine ⟨List.mem_range.mp (List.mem_of_find?_eq_some hg),
      List.find?_some hg, ?_⟩
    intro g0 hg0
    have hglt : g < 0x100 := List.mem_range.mp (List.mem_of_find?_eq_some hg)
    exact find?_first _ g hg (List.pairwise_lt_range _) g0
      (List.mem_range.mpr (by omega)) hg0

theorem C4_first_match_witness :
    (∀ g, accepts (fun _ => List.replicate 16 0) (List.replicate 16 0)
        (List.replicate 16 0) 0 g =
      (decrypt_check (fun _ => List.replicate 16 0) (List.replicate 16 0)
        (probeIV (List.replicate 16 0) 0 g)).2) ∧
    (∀ g, findGuess (fun _ => List.replicate 16 0) (List.replicate 16 0)
        (List.replicate 16 0) 0 = some g →
      g < 0x100 ∧ accepts (fun _ => List.replicate 16 0)
          (List.replicate 16 0) (List.replicate 16 0) 0 g = true ∧
        ∀ g0, g0 < g → accepts (fun _ => List.replicate 16 0)
          (List.replicate 16 0) (List.replicate 16 0) 0 g0 = false) ∧
    (attackStep (fun _ => List.replicate 16 0) (List.replicate 16 0)
        (List.replicate 16 0) 0 =
      (findGuess (fun _ => List.replicate 16 0) (List.replicate 16 0)
          (List.replicate 16 0) 0).map
        (fun g => (List.replicate 16 0).set 0 (g ^^^ (BLOCKSIZE - 0)))) ∧
    (attackLoop (fun _ => List.replicate 16 0) (List.replicate 16 0) 1
        (List.replicate 16 0) =
      (attackStep (fun _ => List.replicate 16 0) (List.replicate 16 0)
          (List.replicate 16 0) 0).bind
        (attackLoop (fun _ => List.replicate 16 0) (List.replicate 16 0) 0)) :=
  C4_first_match (fun _ => List.replicate 16 0) (List.replicate 16 0)
    (List.replicate 16 0) 0 (by decide)

/-- C5: if no guess in `0..255` is accepted at some index, the search
returns nothing, the whole per-block loop aborts with the fatal error
(`none`, the model of `exit(1)`) instead of guessing a default value,
and the driver propagates the failure rather than reporting partial
success for remaining blocks. -/
theorem C5_exhaustion (dec : List Nat → List Nat) (blk st : List Nat)
    (i : Nat) (hfail : ∀ g, g < 0x100 → accepts dec blk st i g = false) :
    findGuess dec blk st i = none ∧
    attackLoop dec blk (i + 1) st = none ∧
    (∀ iv, attackLoop dec blk BLOCKSIZE (List.replicate BLOCKSIZE 0) =
        none → attack_single_block iv blk dec = none) ∧
    (∀ prev rest, attack_single_block prev blk dec = none →
      driverLoop dec prev (blk :: rest) = none) := by
  have hfg : findGuess dec blk st i = none := by
    rw [findGuess, List.find?_eq_none]
    intro x hx
    rw [hfail x (List.mem_range.mp hx)]
    simp
  refine ⟨hfg, ?_, ?_, ?_⟩
  · show (attackStep dec blk st i).bind _ = none
    rw [attackStep, hfg]
    rfl
  · intro iv h
    rw [attack_single_block, h]
    rfl
  · intro prev rest h
    show (attack_single_block prev blk dec).bind _ = none
    rw [h]
    rfl

set_option maxRecDepth 4000 in
theorem C5_exhaustion_witness :
    findGuess (fun _ => []) (List.replicate 16 0) (List.replicate 16 0)
        (BLOCKSIZE - 1) = none ∧
    attackLoop (fun _ => []) (List.replicate 16 0) (BLOCKSIZE - 1 + 1)
        (List.replicate 16 0) = none ∧
    (∀ iv, attackLoop (fun _ => []) (List.replicate 16 0) BLOCKSIZE
        (List.replicate BLOCKSIZE 0) = none →
      attack_single_block iv (List.replicate 16 0) (fun _ => []) = none) ∧
    (∀ prev rest,
      attack_single_block prev (List.replicate 16 0) (fun _ => []) = none →
      driverLoop (fun _ => []) prev (List.replicate 16 0 :: rest) = none) :=
  C5_exhaustion (fun _ => []) (List.replicate 16 0) (List.replicate 16 0)
    (BLOCKSIZE - 1) (by decide)

/-- C7: the driver splits the ciphertext into consecutive block-sized
pieces, attacks them in increasing index order with the IV as
predecessor of block 0 and ciphertext block `k-1` as predecessor of
block `k`, and returns the plain concatenation of the recovered blocks
— the trailing padding is left in place, no unpadding happens. -/
theorem C7_driver (dec : List Nat → List Nat) :
    ∀ (bs ps : List (List Nat)) (iv : List Nat),
      (∀ b ∈ bs, b.length = BLOCKSIZE) →
      bs.length = ps.length →
      (∀ k, k < bs.length →
        attack_single_block (if k = 0 then iv else bs.getD (k - 1) [])
          (bs.getD k []) dec = some (ps.getD k [])) →
      attackDriver dec iv bs.flatten = some ps.flatten := by
  intro bs
  induction bs with
  | nil =>
      intro ps iv _ hlen _
      have hps : ps = [] := List.eq_nil_of_length_eq_zero hlen.symm
      rw [hps, attackDriver, show ([] : List (List Nat)).flatten = []
        from rfl, toBlocks_nil]
      rfl
  | cons b rest ih =>
      intro ps iv hwf hlen hrec
      obtain ⟨p, ps', rfl⟩ : ∃ p ps', ps = p :: ps' := by
        cases ps with
        | nil => simp at hlen
        | cons p ps' => exact ⟨p, ps', rfl⟩
      have hwf' : ∀ b' ∈ rest, b'.length = BLOCKSIZE :=
        fun b' hb' => hwf b' (by simp [hb'])
      have hrec' : ∀ k, k < rest.length →
          attack_single_block (if k = 0 then b else rest.getD (k - 1) [])
            (rest.getD k []) dec = some (ps'.getD k []) := by
        intro k hk
        have h := hrec (k + 1) (by simp; omega)
        simp only [Nat.add_sub_cancel, List.getD_cons_succ,
          Nat.succ_ne_zero, if_false] at h
        cases k with
        | zero => simpa using h
        | succ k' => simpa using h
      have hih := ih ps' b hwf' (by simpa using hlen) hrec'
      rw [attackDriver, toBlocks_flatten _ hwf'] at hih
      rw [attackDriver, toBlocks_flatten _ hwf]
      show (attack_single_block iv b dec).bind _ = _
      have h0 := hrec 0 (by simp)
      simp at h0
      rw [h0, Option.some_bind, hih]
      rfl

theorem C7_driver_witness :
    attackDriver (fun b => b) (List.replicate 16 0)
        ([List.replicate 16 0] : List (List Nat)).flatten =
      some ([List.replicate 16 0] : List (List Nat)).flatten :=
  C7_driver (fun b => b) [List.replicate 16 0] [List.replicate 16 0]
    (List.replicate 16 0) (by decide) rfl
    (fun k hk => by
      have hk0 : k = 0 := by
        simp at hk
        omega
      subst hk0
      decide)

theorem attackLoop_length (dec : List Nat → List Nat) (blk : List Nat) :
    ∀ k st res, attackLoop dec blk k st = some res →
      res.length = st.length := by
  intro k
  induction k with
  | zero =>
      intro st res h
      have h' : st = res := Option.some.inj h
      rw [h']
  | succ k ih =>
      intro st res h
      rw [show attackLoop dec blk (k + 1) st =
        (attackStep dec blk st k).bind (attackLoop dec blk k) from rfl] at h
      cases hstep : attackStep dec blk st k with
      | none => rw [hstep] at h; cases h
      | some st2 =>
          rw [hstep, Option.some_bind] at h
          have h1 := ih st2 res h
          obtain ⟨g, hst2⟩ : ∃ g, st2 = st.set k (g ^^^ (BLOCKSIZE - k)) := by
            rw [attackStep] at hstep
            cases hfg : findGuess dec blk st k with
            | none => rw [hfg] at hstep; cases hstep
            | some g =>
                rw [hfg, Option.map_some'] at hstep
                exact ⟨g, (Option.some.inj hstep).symm⟩
          rw [h1, hst2, List.length_set]

/-- C8: a byte of the working list, once set while solving index `i`,
is never overwritten by the later steps (which only touch lower
indices); and while index `i` is being solved, every already-filled
byte at an index `j > i` enters each probe IV XORed with the current
pad value `B - i`. -/
theorem C8_invariant (dec : List Nat → List Nat) (blk : List Nat) :
    (∀ k st res, attackLoop dec blk k st = some res →
      ∀ j, k ≤ j → res.getD j 0 = st.getD j 0) ∧
    (∀ st i g j, st.length = BLOCKSIZE → i < j → j < BLOCKSIZE →
      (probeIV st i g).getD j 0 = st.getD j 0 ^^^ (BLOCKSIZE - i)) := by
  constructor
  · intro k
    induction k with
    | zero =>
        intro st res h j _
        have h' : st = res := Option.some.inj h
        rw [h']
    | succ k ih =>
        intro st res h j hj
        rw [show attackLoop dec blk (k + 1) st =
          (attackStep dec blk st k).bind (attackLoop dec blk k)
          from rfl] at h
        cases hstep : attackStep dec blk st k with
        | none => rw [hstep] at h; cases h
        | some st2 =>
            rw [hstep, Option.some_bind] at h
            have hres := ih st2 res h j (by omega)
            obtain ⟨g, hst2⟩ : ∃ g, st2 = st.set k (g ^^^ (BLOCKSIZE - k)) := by
              rw [attackStep] at hstep
              cases hfg : findGuess dec blk st k with
              | none => rw [hfg] at hstep; cases hstep
              | some g =>
                  rw [hfg, Option.map_some'] at hstep
                  exact ⟨g, (Option.some.inj hstep).symm⟩
            rw [hres, hst2]
            by_cases hjl : j < st.length
            · rw [List.getD_eq_getElem _ _
                (by rw [List.length_set]; exact hjl),
                List.getElem_set_ne (by omega),
                List.getD_eq_getElem _ _ hjl]
            · rw [List.getD_eq_default _ _ (by rw [List.length_set]; omega),
                List.getD_eq_default _ _ (by omega)]
  · intro st i g j hst hij hj
    exact probeIV_getD_high st hst i g j hij hj

theorem C8_invariant_witness :
    (∀ k st res,
      attackLoop (fun _ => List.replicate 16 0) (List.replicate 16 0) k st =
        some res → ∀ j, k ≤ j → res.getD j 0 = st.getD j 0) ∧
    (∀ st i g j, st.length = BLOCKSIZE → i < j → j < BLOCKSIZE →
      (probeIV st i g).getD j 0 = st.getD j 0 ^^^ (BLOCKSIZE - i)) :=
  C8_invariant (fun _ => List.replicate 16 0) (List.replicate 16 0)

/-! ### Oracle-call counting -/

theorem guessChecks_le (dec : List Nat → List Nat) (blk st : List Nat)
    (i g : Nat) : guessChecks dec blk st i g ≤ 2 := by
  rw [guessChecks]
  split
  · split
    · exact le_refl 2
    · omega
  · omega

theorem guessChecks_ne_last (dec : List Nat → List Nat) (blk st : List Nat)
    (i g : Nat) (hi : ¬ i = BLOCKSIZE - 1) :
    guessChecks dec blk st i g = 1 := by
  rw [guessChecks]
  simp [hi]

theorem foldr_add_le (f : Nat → Nat) (c : Nat) : ∀ L : List Nat,
    (∀ x ∈ L, f x ≤ c) →
    L.foldr (fun g acc => f g + acc) 0 ≤ c * L.length := by
  intro L
  induction L with
  | nil => intro _; simp
  | cons x xs ih =>
      intro h
      have h1 := h x (by simp)
      have h2 := ih (fun y hy => h y (by simp [hy]))
      simp only [List.foldr_cons, List.length_cons]
      calc f x + xs.foldr (fun g acc => f g + acc) 0 ≤ c + c * xs.length :=
            by omega
        _ = c * (xs.length + 1) := by ring

theorem indexChecks_le (dec : List Nat → List Nat) (blk st : List Nat)
    (i : Nat) :
    indexChecks dec blk st i ≤ (if i = BLOCKSIZE - 1 then 2 else 1) * 256 := by
  rw [indexChecks]
  have hmain : ∀ L : List Nat, L.length ≤ 256 →
      L.foldr (fun g acc => guessChecks dec blk st i g + acc) 0 ≤
        (if i = BLOCKSIZE - 1 then 2 else 1) * 256 := by
    intro L hL
    have hval : ∀ x ∈ L, guessChecks dec blk st i x ≤
        (if i = BLOCKSIZE - 1 then 2 else 1) := by
      intro x _
      by_cases hi : i = BLOCKSIZE - 1
      · rw [if_pos hi]
        exact guessChecks_le dec blk st i x
      · rw [if_neg hi, guessChecks_ne_last dec blk st i x hi]
    calc L.foldr (fun g acc => guessChecks dec blk st i g + acc) 0
        ≤ (if i = BLOCKSIZE - 1 then 2 else 1) * L.length :=
          foldr_add_le _ _ L hval
      _ ≤ (if i = BLOCKSIZE - 1 then 2 else 1) * 256 :=
          Nat.mul_le_mul_left _ hL
  cases hfg : findGuess dec blk st i with
  | none => exact hmain _ (by simp)
  | some g =>
      refine hmain _ ?_
      have hg : g < 0x100 := by
        rw [findGuess] at hfg
        exact List.mem_range.mp (List.mem_of_find?_eq_some hfg)
      simp
      omega

theorem totalChecks_le_aux (dec : List Nat → List Nat) (blk : List Nat) :
    ∀ k, k ≤ BLOCKSIZE - 1 → ∀ st,
      totalChecks dec blk k st ≤ 256 * k := by
  intro k
  induction k with
  | zero => intro _ st; exact le_refl 0
  | succ k ih =>
      intro hk st
      show indexChecks dec blk st k +
        (match attackStep dec blk st k with
         | none => 0
         | some st2 => totalChecks dec blk k st2) ≤ 256 * (k + 1)
      have h1 : indexChecks dec blk st k ≤ 256 := by
        have h := indexChecks_le dec blk st k
        rw [if_neg (by omega), one_mul] at h
        exact h
      cases hstep : attackStep dec blk st k with
      | none => simp only [hstep]; omega
      | some st2 =>
          have h2 := ih (by omega) st2
          simp only [hstep]
          omega

theorem indexChecks_eq_of_findGuess (dec : List Nat → List Nat)
    (blk st : List Nat) (i g : Nat) (h : findGuess dec blk st i = some g) :
    indexChecks dec blk st i = (List.range (g + 1)).foldr
      (fun g0 acc => guessChecks dec blk st i g0 + acc) 0 := by
  rw [indexChecks, h]

theorem foldr_guessChecks_one (dec : List Nat → List Nat) (blk st : List Nat)
    (i : Nat) (hi : ¬ i = BLOCKSIZE - 1) : ∀ L : List Nat,
    L.foldr (fun g acc => guessChecks dec blk st i g + acc) 0 = L.length := by
  intro L
  induction L with
  | nil => rfl
  | cons x xs ih =>
      simp only [List.foldr_cons, guessChecks_ne_last dec blk st i x hi, ih,
        List.length_cons]
      omega

theorem totalChecks_step (dec : List Nat → List Nat) (blk : List Nat)
    (hD : (dec blk).length = BLOCKSIZE) (hDb : ∀ x ∈ dec blk, x < 256)
    (k : Nat) (hk : k < BLOCKSIZE) :
    totalChecks dec blk (k + 1) (sigma (dec blk) (k + 1)) =
      indexChecks dec blk (sigma (dec blk) (k + 1)) k +
        totalChecks dec blk k (sigma (dec blk) k) := by
  show indexChecks dec blk (sigma (dec blk) (k + 1)) k +
    (match attackStep dec blk (sigma (dec blk) (k + 1)) k with
     | none => 0
     | some st2 => totalChecks dec blk k st2) = _
  rw [attackStep_sigma dec blk hD hDb k hk]

theorem indexChecks_mid_val (dec : List Nat → List Nat) (blk : List Nat)
    (hD : (dec blk).length = BLOCKSIZE) (hDb : ∀ x ∈ dec blk, x < 256)
    (i : Nat) (hi : i < BLOCKSIZE - 1) :
    indexChecks dec blk (sigma (dec blk) (i + 1)) i =
      ((dec blk).getD i 0 ^^^ (BLOCKSIZE - i)) + 1 := by
  rw [indexChecks_eq_of_findGuess dec blk _ i _
    (findGuess_mid dec blk hD hDb i hi),
    foldr_guessChecks_one dec blk _ i (by omega)]
  simp

theorem totalChecks_sigma_mid (dec : List Nat → List Nat) (blk : List Nat)
    (hD : (dec blk).length = BLOCKSIZE) (hDb : ∀ x ∈ dec blk, x < 256)
    (hmid : ∀ k, k < BLOCKSIZE - 1 →
      (dec blk).getD k 0 ^^^ (BLOCKSIZE - k) = 255) :
    ∀ k, k ≤ BLOCKSIZE - 1 →
      totalChecks dec blk k (sigma (dec blk) k) = 256 * k := by
  have hB16 : BLOCKSIZE = 16 := rfl
  intro k
  induction k with
  | zero => intro _; rfl
  | succ k ih =>
      intro hk
      rw [totalChecks_step dec blk hD hDb k (by omega),
        indexChecks_mid_val dec blk hD hDb k (by omega), hmid k (by omega),
        ih (by omega)]
      omega

/-- C9 (amended): the per-block number of oracle calls is at most
`B * 256` probes plus at most one confirmation probe per guess at the
last index, hence at most `B * 256 + 256` in total; the plain `B * 256`
bound of the claim is exceeded in the worst case (see the
counterexample). -/
theorem C9_call_bound (dec : List Nat → List Nat) (blk : List Nat) :
    totalChecks dec blk BLOCKSIZE (List.replicate BLOCKSIZE 0) ≤
      BLOCKSIZE * 256 + 256 := by
  have hB16 : BLOCKSIZE = 16 := rfl
  show indexChecks dec blk (List.replicate BLOCKSIZE 0) 15 +
    (match attackStep dec blk (List.replicate BLOCKSIZE 0) 15 with
     | none => 0
     | some st2 => totalChecks dec blk 15 st2) ≤ BLOCKSIZE * 256 + 256
  have h1 := indexChecks_le dec blk (List.replicate BLOCKSIZE 0) 15
  rw [if_pos (show (15 : Nat) = BLOCKSIZE - 1 from rfl)] at h1
  cases hstep : attackStep dec blk (List.replicate BLOCKSIZE 0) 15 with
  | none => simp only [hstep]; omega
  | some st2 =>
      have h2 := totalChecks_le_aux dec blk 15 (by omega) st2
      simp only [hstep]
      omega

set_option maxRecDepth 100000 in
set_option maxHeartbeats 1000000 in
/-- C9 (counterexample): a block cipher whose intermediate value is
`DCEX = [239, 240, ..., 253, 254]` drives every index through all 256
guesses and additionally needs one confirmation probe at the last
index, for 4097 oracle calls — more than `B * 256 = 4096`. -/
theorem C9_counterexample :
    BLOCKSIZE * 256 <
      totalChecks (fun _ => DCEX) (List.replicate 16 0) BLOCKSIZE
        (List.replicate BLOCKSIZE 0) := by
  have hD : ((fun _ : List Nat => DCEX) (List.replicate 16 0)).length =
      BLOCKSIZE := by decide
  have hDb : ∀ x ∈ (fun _ : List Nat => DCEX) (List.replicate 16 0),
      x < 256 := by decide
  have hmid : ∀ k, k < BLOCKSIZE - 1 →
      ((fun _ : List Nat => DCEX) (List.replicate 16 0)).getD k 0 ^^^
        (BLOCKSIZE - k) = 255 := by decide
  have hlast : indexChecks (fun _ => DCEX) (List.replicate 16 0)
      (sigma ((fun _ : List Nat => DCEX) (List.replicate 16 0)) (15 + 1))
      15 = 257 := by decide
  rw [← sigma_top _ hD]
  have h16 : BLOCKSIZE = 15 + 1 := rfl
  rw [h16]
  rw [totalChecks_step (fun _ => DCEX) (List.replicate 16 0) hD hDb 15
    (by decide), hlast,
    totalChecks_sigma_mid (fun _ => DCEX) (List.replicate 16 0) hD hDb hmid
      15 (by decide)]
  norm_num

/-- C10: the two argument lists of every internal `xor` call have equal
length — the probe-suffix call pairs the `B - (i+1)` working bytes with
`B - (i+1)` pad bytes, and the final call pairs the block-length result
of the loop with the block-length predecessor — so the checked `xor`
(whose `none` models the assert failing) always succeeds. -/
theorem C10_xor_assert (dec : List Nat → List Nat) (blk iv st : List Nat)
    (hst : st.length = BLOCKSIZE) (hiv : iv.length = BLOCKSIZE) (i : Nat) :
    (st.drop (i + 1)).length =
      (List.replicate (BLOCKSIZE - (i + 1)) (BLOCKSIZE - i)).length ∧
    xor (st.drop (i + 1))
        (List.replicate (BLOCKSIZE - (i + 1)) (BLOCKSIZE - i)) =
      some (xorBytes (st.drop (i + 1))
        (List.replicate (BLOCKSIZE - (i + 1)) (BLOCKSIZE - i))) ∧
    (∀ res, attackLoop dec blk BLOCKSIZE (List.replicate BLOCKSIZE 0) =
        some res →
      res.length = BLOCKSIZE ∧ xor res iv = some (xorBytes res iv)) := by
  have hlen : (st.drop (i + 1)).length =
      (List.replicate (BLOCKSIZE - (i + 1)) (BLOCKSIZE - i)).length := by
    simp [hst]
  refine ⟨hlen, by rw [xor, if_pos hlen], ?_⟩
  intro res hres
  have hreslen : res.length = BLOCKSIZE := by
    have h := attackLoop_length dec blk BLOCKSIZE _ res hres
    rw [h]
    simp
  exact ⟨hreslen, by rw [xor, if_pos (by rw [hreslen, hiv])]⟩

theorem C10_xor_assert_witness :
    ((List.replicate 16 0 : List Nat).drop (0 + 1)).length =
      (List.replicate (BLOCKSIZE - (0 + 1)) (BLOCKSIZE - 0)).length ∧
    xor ((List.replicate 16 0 : List Nat).drop (0 + 1))
        (List.replicate (BLOCKSIZE - (0 + 1)) (BLOCKSIZE - 0)) =
      some (xorBytes ((List.replicate 16 0 : List Nat).drop (0 + 1))
        (List.replicate (BLOCKSIZE - (0 + 1)) (BLOCKSIZE - 0))) ∧
    (∀ res, attackLoop (fun _ => List.replicate 16 0) (List.replicate 16 0)
        BLOCKSIZE (List.replicate BLOCKSIZE 0) = some res →
      res.length = BLOCKSIZE ∧
        xor res (List.replicate 16 0) =
          some (xorBytes res (List.replicate 16 0))) :=
  C10_xor_assert (fun _ => List.replicate 16 0) (List.replicate 16 0)
    (List.replicate 16 0) (List.replicate 16 0) (by decide) (by decide) 0

end CBCDemo
